/-
Verification of the opening-repertoire expansion tool
(`src/expand_openings.py`) against its natural-language specification.

The development is a shallow embedding of the Python source:

* `top_moves` (statistics query + coverage-cutoff selection) is split into
  `buildQuery` (URL/parameter selection, including the rating-band
  computation `min(r for r in RATING_BANDS if r >= min_rating)`),
  an abstract `fetch` oracle standing for `requests.get(...).json()["moves"]`,
  and `topMovesProcess` (the pure post-processing of the returned move
  records: game counts, shares, stable descending sort, coverage cutoff).
* `get_best_move` is an abstract oracle (external engine collaborator).
* `expand_openings` is embedded as `expandLine` / `expandGeneration` /
  `expandIters`, with `Except String` modelling Python exception
  propagation (an uncaught exception aborts the run with no partial
  result).

Numeric model: the Python code stores `np.round(games / total_games, 2)`,
an IEEE-754 round-half-to-even to two decimal places, and compares running
sums against `0.6`.  After rounding, every share is an exact multiple of
1/100, so shares are represented here exactly as integer hundredths:
`percent100 = 50` stands for the stored value `0.50`, and the threshold
`0.6` is `60`.  `roundHalfEvenDiv (100 * games) total` is the exact
round-half-to-even of `100 * games / total`, the idealisation of
`np.round(games / total, 2) * 100`.

String model: Python `str.split()` (split on whitespace runs, dropping
empty fields) is embedded as `pySplit`; Python's stable `sorted(...,
key=..., reverse=True)` is embedded as the stable insertion sort
`sortDesc` (stable sorting by a key is uniquely determined, so any stable
sort is a faithful model).  `python-chess` board replay is abstracted by
the oracles `Env.turnOf` / `Env.fenOf` (the board after replaying a move
list is a function of that list).
-/
import Mathlib

/-! ## Python `str.split()` -/

/-- Accumulating core of `pySplit`.  The second argument is the current
word, reversed.  Processes the characters left to right, emitting a word
at each whitespace run boundary, exactly like Python `str.split()` with
no separator argument. -/
def pyWordsAux : List Char → List Char → List String
  | [], cur => if cur.isEmpty then [] else [String.mk cur.reverse]
  | c :: cs, cur =>
      if c.isWhitespace then
        if cur.isEmpty then pyWordsAux cs []
        else String.mk cur.reverse :: pyWordsAux cs []
      else pyWordsAux cs (c :: cur)

/-- Python `s.split()`: split on whitespace runs, no empty fields. -/
def pySplit (s : String) : List String := pyWordsAux s.data []

/-- A string that Python `split()` treats as a single field: non-empty and
free of whitespace.  SAN move identifiers are tokens. -/
def isToken (s : String) : Bool :=
  !s.data.isEmpty && s.data.all (fun c => !c.isWhitespace)

/-! ## Data model of the statistics provider -/

/-- One move record of the explorer JSON response: a SAN move identifier
plus white-win / draw / black-win game counts (`m["san"]`, `m["white"]`,
`m["draws"]`, `m["black"]`).  Counts are well-formed (non-negative), as
assumed by the specification. -/
structure MoveRec where
  san : String
  white : Nat
  draws : Nat
  black : Nat
deriving DecidableEq

/-- Line 39: `m["games"] = m["white"] + m["draws"] + m["black"]`. -/
def MoveRec.games (m : MoveRec) : Nat := m.white + m.draws + m.black

/-- Line 40: `total_games = sum(m["games"] for m in moves)`, over the
full result set before truncation. -/
def totalGames (ms : List MoveRec) : Nat := (ms.map MoveRec.games).sum

/-- Exact round-half-to-even of the fraction `n / d` (for `d > 0`),
the integer idealisation of `np.round`'s rounding rule. -/
def roundHalfEvenDiv (n d : Nat) : Nat :=
  let q := n / d
  let r := n % d
  if 2 * r < d then q
  else if d < 2 * r then q + 1
  else if q % 2 = 0 then q else q + 1

/-- The share of a move with game count `g` out of `total`, in integer
hundredths: the exact value of `np.round(g / total, 2)` (line 42) scaled
by 100. -/
def pct100 (total g : Nat) : Nat := roundHalfEvenDiv (100 * g) total

/-- A move record after the two mutation loops of `top_moves` added the
`"games"` and `"percent"` keys (lines 38-42).  `percent100` is the stored
share in integer hundredths.  Equality of `ScoredMove`s models Python
dict equality, as used by `moves.index(m)` (line 48). -/
structure ScoredMove where
  san : String
  white : Nat
  draws : Nat
  black : Nat
  games : Nat
  percent100 : Nat
deriving DecidableEq

/-- Scoring one record: attach the game count and the share (denominator
`total` is the summed game count of the full result set). -/
def score (total : Nat) (m : MoveRec) : ScoredMove :=
  ⟨m.san, m.white, m.draws, m.black, m.games, pct100 total m.games⟩

/-- Insert into a list already sorted by descending game count, before
the first element of strictly smaller or equal-and-later game count.
Together with `sortDesc` this is the stable descending sort
`sorted(moves, key=lambda m: m["games"], reverse=True)` (line 43). -/
def insertDesc (m : ScoredMove) : List ScoredMove → List ScoredMove
  | [] => [m]
  | n :: rest => if n.games ≤ m.games then m :: n :: rest else n :: insertDesc m rest

/-- Stable sort by descending game count. -/
def sortDesc : List ScoredMove → List ScoredMove
  | [] => []
  | m :: rest => insertDesc m (sortDesc rest)

/-- Cumulative share, in hundredths, of a candidate list: the value of
the running sum `s` of `m["percent"]` (lines 44-46) after the list. -/
def cumPct100 (l : List ScoredMove) : Nat := (l.map ScoredMove.percent100).sum

/-- The cutoff scan of lines 44-48: accumulate shares over the sorted
list and return the first candidate at which the running sum reaches
`0.6` (`60` hundredths), if any. -/
def firstReaching : List ScoredMove → Nat → Option ScoredMove
  | [], _ => none
  | m :: rest, s =>
      if 60 ≤ s + m.percent100 then some m else firstReaching rest (s + m.percent100)

/-- The pure tail of `top_moves` (lines 37-49): score the records, sort
by descending game count (stable), scan the running share sum, and on
reaching `0.6` return `moves[: moves.index(m) + 1]` — the prefix up to
the *first dict equal to* `m`.  If the running sum never reaches `0.6`,
the whole sorted list is returned (line 49). -/
def topMovesProcess (ms : List MoveRec) : List ScoredMove :=
  let total := totalGames ms
  let sorted := sortDesc (ms.map (score total))
  match firstReaching sorted 0 with
  | some m => sorted.take (sorted.indexOf m + 1)
  | none => sorted

/-! ## Query construction (lines 26-33) -/

/-- Line 16: `RATING_BANDS = (1600, 1800, 2000, 2500)`. -/
def RATING_BANDS : List Int := [1600, 1800, 2000, 2500]

/-- The two Lichess endpoints (lines 14-15). -/
inductive Pool where
  | masters
  | lichessDB
deriving DecidableEq

/-- The request `top_moves` issues: which pool, the `fen` parameter, and
the optional `ratings` band parameter. -/
structure QueryRequest where
  pool : Pool
  fen : String
  band : Option Int
deriving DecidableEq

/-- Line 26: `fen_minimal = " ".join(fen.split()[:4])`. -/
def fenMinimal (fen : String) : String :=
  " ".intercalate ((pySplit fen).take 4)

/-- Lines 28-30: `min(r for r in RATING_BANDS if r >= min_rating) if
min_rating else 2500`; `none` models the `ValueError` that Python `min`
raises on an empty sequence. -/
def bandFor (minRating : Int) : Option Int :=
  if minRating ≠ 0 then (RATING_BANDS.filter (fun r => decide (minRating ≤ r))).min?
  else some 2500

/-- Lines 26-33 of `top_moves`: build the request, or fail as Python
does when the band computation raises before any network call. -/
def buildQuery (fen : String) (minRating : Option Int) : Except String QueryRequest :=
  match minRating with
  | some mr =>
      match bandFor mr with
      | none => Except.error "ValueError: min() arg is an empty sequence"
      | some b => Except.ok ⟨Pool.lichessDB, fenMinimal fen, some b⟩
  | none => Except.ok ⟨Pool.masters, fenMinimal fen, none⟩

/-- The whole of `top_moves`, with the network call
(`requests.get` / `raise_for_status` / `.json()["moves"]`, lines 34-37)
abstracted as the `fetch` oracle; a `fetch` error models a non-2xx
response or timeout exception. -/
def topMoves (fetch : QueryRequest → Except String (List MoveRec))
    (fen : String) (minRating : Option Int) : Except String (List ScoredMove) :=
  match buildQuery fen minRating with
  | Except.error e => Except.error e
  | Except.ok q =>
      match fetch q with
      | Except.error e => Except.error e
      | Except.ok ms => Except.ok (topMovesProcess ms)

/-! ## The expander (`expand_openings`, lines 62-91) -/

/-- The external collaborators of the expander, as oracles:

* `turnOf moves` — `board.turn` after replaying `moves` from the start
  position (`chess.WHITE` is `true`, as in python-chess);
* `fenOf moves` — `board.fen()` after the same replay (the board is a
  function of the replayed move list);
* `fetch` — the Lichess explorer HTTP call inside `top_moves`;
* `bestMove fen t` — `get_best_move(fen, time_limit=t)`, the Stockfish
  collaborator (budget in seconds); an error models
  `EngineUnavailableError` / `EvaluationError`. -/
structure Env where
  turnOf : List String → Bool
  fenOf : List String → String
  fetch : QueryRequest → Except String (List MoveRec)
  bestMove : String → ℚ → Except String String

/-- The body of the per-line loop (lines 74-86): replay the line, then
either branch on the statistical candidates at `min_rating=2500` (with
the single-engine-move fallback at time budget 1.0 when zero candidates
come back), or, on the player's own turn, commit to the single engine
move at the default time budget 0.5. -/
def expandLine (env : Env) (player : Bool) (line : String) : Except String (List String) :=
  let moves := pySplit line
  if env.turnOf moves ≠ player then
    let fen := env.fenOf moves
    match topMoves env.fetch fen (some 2500) with
    | Except.error e => Except.error e
    | Except.ok candidates =>
        if candidates.length < 1 then
          match env.bestMove fen 1 with
          | Except.error e => Except.error e
          | Except.ok mv => Except.ok [line ++ " " ++ mv]
        else Except.ok (candidates.map (fun c => line ++ " " ++ c.san))
  else
    match env.bestMove (env.fenOf moves) (1/2 : ℚ) with
    | Except.error e => Except.error e
    | Except.ok mv => Except.ok [line ++ " " ++ mv]

/-- One iteration of the outer loop (lines 73-87): process the current
generation in order, appending every line's children to `new_lines`.  An
uncaught exception anywhere aborts the whole iteration with no partial
result, exactly like Python exception propagation. -/
def expandGeneration (env : Env) (player : Bool) : List String → Except String (List String)
  | [] => Except.ok []
  | line :: rest =>
      match expandLine env player line with
      | Except.error e => Except.error e
      | Except.ok children =>
          match expandGeneration env player rest with
          | Except.error e => Except.error e
          | Except.ok tail => Except.ok (children ++ tail)

/-- Lines 72-88: `for i in range(iterations)` — iterate
`expandGeneration`, replacing the generation each time. -/
def expandIters (env : Env) (player : Bool) : Nat → List String → Except String (List String)
  | 0, gen => Except.ok gen
  | n + 1, gen =>
      match expandGeneration env player gen with
      | Except.error e => Except.error e
      | Except.ok g2 => expandIters env player n g2

/-- The entry point `expand_openings(initial_openings, player,
iterations)`: `openings = list(initial_openings)` (a fresh copy, line
68) followed by the iteration loop.  Printing progress is a side effect with no bearing
on the result and is not modelled. -/
def expandOpenings (env : Env) (initial : List String) (player : Bool)
    (iterations : Nat) : Except String (List String) :=
  expandIters env player iterations initial

/-- Well-formedness of the oracles, guaranteed by the external
collaborators' contracts: every SAN move identifier they produce is a
single whitespace-free non-empty field, so appending `" " + san` adds
exactly one ply to a line. -/
def TokenEnv (env : Env) : Prop :=
  (∀ q ms, env.fetch q = Except.ok ms → ∀ m ∈ ms, isToken m.san = true) ∧
  (∀ fen t mv, env.bestMove fen t = Except.ok mv → isToken mv = true)

/-! ## Lemmas about `pySplit` -/

lemma pyWordsAux_token (td : List Char) (hws : ∀ c ∈ td, c.isWhitespace = false) :
    ∀ cur : List Char, cur ≠ [] ∨ td ≠ [] →
      pyWordsAux td cur = [String.mk (cur.reverse ++ td)] := by
  induction td with
  | nil =>
      intro cur hcur
      rcases hcur with h | h
      · simp [pyWordsAux, h]
      · exact absurd rfl h
  | cons c cs ih =>
      intro cur _
      have hc : c.isWhitespace = false := hws c (List.mem_cons_self c cs)
      have hcs : ∀ x ∈ cs, x.isWhitespace = false := fun x hx => hws x (List.mem_cons_of_mem c hx)
      simp only [pyWordsAux, hc, Bool.false_eq_true, if_false]
      rw [ih hcs (c :: cur) (Or.inl (List.cons_ne_nil c cur))]
      simp

lemma pyWordsAux_append_token (td : List Char) (hne : td ≠ [])
    (hws : ∀ c ∈ td, c.isWhitespace = false) :
    ∀ (l cur : List Char), pyWordsAux (l ++ ' ' :: td) cur = pyWordsAux l cur ++ [String.mk td] := by
  intro l
  induction l with
  | nil =>
      intro cur
      have hsp : (' ' : Char).isWhitespace = true := by decide
      have hbase : pyWordsAux td [] = [String.mk td] := by
        simpa using pyWordsAux_token td hws [] (Or.inr hne)
      by_cases hcur : cur.isEmpty
      · simp [pyWordsAux, hsp, hcur, hbase]
      · simp [pyWordsAux, hsp, hcur, hbase]
  | cons c cs ih =>
      intro cur
      by_cases hc : c.isWhitespace
      · by_cases hcur : cur.isEmpty
        · simp [pyWordsAux, hc, hcur, ih]
        · simp [pyWordsAux, hc, hcur, ih]
      · simp [pyWordsAux, hc, ih]

lemma isToken_spec (t : String) (h : isToken t = true) :
    t.data ≠ [] ∧ ∀ c ∈ t.data, c.isWhitespace = false := by
  simp only [isToken, Bool.and_eq_true, Bool.not_eq_true', List.all_eq_true] at h
  exact ⟨fun hnil => by simp [hnil] at h, fun c hc => h.2 c hc⟩

/-- Appending one SAN token to a line adds exactly one field to its
Python `split()`. -/
lemma pySplit_append_token (line t : String) (h : isToken t = true) :
    pySplit (line ++ " " ++ t) = pySplit line ++ [t] := by
  obtain ⟨hne, hws⟩ := isToken_spec t h
  have hdata : (line ++ " " ++ t).data = line.data ++ ' ' :: t.data := by
    simp [String.data_append]
  unfold pySplit
  rw [hdata, pyWordsAux_append_token t.data hne hws]

lemma string_append_left_cancel {a s t : String} (h : a ++ s = a ++ t) : s = t := by
  have hd := congrArg String.data h
  simp only [String.data_append] at hd
  have : s.data = t.data := List.append_cancel_left hd
  exact congrArg String.mk this

/-! ## The rounding error bound -/

/-- Rounding error bound: `roundHalfEvenDiv n d` is within one half of
the exact fraction:
`2 * |d * round - n| ≤ d`.  This is the "± half a hundredth per rounded
share" fact behind the spec's "sum to 1.00 up to rounding error". -/
lemma roundHalfEvenDiv_close (n d : Nat) (hd : 0 < d) :
    2 * |(d : ℤ) * roundHalfEvenDiv n d - n| ≤ d := by
  have key : d * (n / d) + n % d = n := Nat.div_add_mod n d
  have hrd : n % d < d := Nat.mod_lt n hd
  simp only [roundHalfEvenDiv]
  have hcast : (n : ℤ) = (d : ℤ) * (n / d : Nat) + (n % d : Nat) := by exact_mod_cast key.symm
  split_ifs with h1 h2 h3
  · have : (d : ℤ) * (n / d : Nat) - n = -(n % d : Nat) := by rw [hcast]; ring
    rw [this, abs_neg, abs_of_nonneg (by positivity)]
    omega
  · have hsucc : ((n / d + 1 : Nat) : ℤ) = ((n / d : Nat) : ℤ) + 1 := by exact_mod_cast rfl
    have : (d : ℤ) * ((n / d + 1 : Nat) : ℤ) - n = (d : ℤ) - (n % d : Nat) := by
      rw [hsucc, hcast]; ring
    rw [this, abs_of_nonneg (by omega)]
    omega
  · have : (d : ℤ) * (n / d : Nat) - n = -(n % d : Nat) := by rw [hcast]; ring
    rw [this, abs_neg, abs_of_nonneg (by positivity)]
    omega
  · have hsucc : ((n / d + 1 : Nat) : ℤ) = ((n / d : Nat) : ℤ) + 1 := by exact_mod_cast rfl
    have : (d : ℤ) * ((n / d + 1 : Nat) : ℤ) - n = (d : ℤ) - (n % d : Nat) := by
      rw [hsucc, hcast]; ring
    rw [this, abs_of_nonneg (by omega)]
    omega

/-! ## Lemmas about the stable descending sort -/

lemma insertDesc_perm (m : ScoredMove) (l : List ScoredMove) :
    List.Perm (insertDesc m l) (m :: l) := by
  induction l with
  | nil => simp [insertDesc]
  | cons n rest ih =>
      simp only [insertDesc]
      split_ifs
      · exact List.Perm.refl _
      · exact List.Perm.trans (List.Perm.cons n ih) (List.Perm.swap m n rest)

lemma sortDesc_perm (l : List ScoredMove) : List.Perm (sortDesc l) l := by
  induction l with
  | nil => simp [sortDesc]
  | cons m rest ih =>
      exact List.Perm.trans (insertDesc_perm m (sortDesc rest)) (List.Perm.cons m ih)

lemma insertDesc_pairwise (m : ScoredMove) (l : List ScoredMove)
    (h : l.Pairwise (fun a b => b.games ≤ a.games)) :
    (insertDesc m l).Pairwise (fun a b => b.games ≤ a.games) := by
  induction l with
  | nil => simp [insertDesc]
  | cons n rest ih =>
      rw [List.pairwise_cons] at h
      simp only [insertDesc]
      split_ifs with hle
      · refine List.pairwise_cons.2 ⟨?_, List.pairwise_cons.2 ⟨h.1, h.2⟩⟩
        intro x hx
        rcases List.mem_cons.1 hx with rfl | hx
        · exact hle
        · exact le_trans (h.1 x hx) hle
      · refine List.pairwise_cons.2 ⟨?_, ih h.2⟩
        intro x hx
        have hx2 := (insertDesc_perm m rest).mem_iff.1 hx
        rcases List.mem_cons.1 hx2 with rfl | hx2
        · exact Nat.le_of_lt (Nat.lt_of_not_le hle)
        · exact h.1 x hx2

/-- The `sortDesc` output is sorted by descending game count. -/
lemma sortDesc_pairwise (l : List ScoredMove) :
    (sortDesc l).Pairwise (fun a b => b.games ≤ a.games) := by
  induction l with
  | nil => simp [sortDesc]
  | cons m rest ih => exact insertDesc_pairwise m (sortDesc rest) ih

/-! ## Lemmas about the coverage-cutoff scan -/

lemma cumPct100_append (a b : List ScoredMove) :
    cumPct100 (a ++ b) = cumPct100 a + cumPct100 b := by
  simp [cumPct100]

lemma cumPct100_cons (m : ScoredMove) (l : List ScoredMove) :
    cumPct100 (m :: l) = m.percent100 + cumPct100 l := by
  simp [cumPct100]

/-- Cumulative shares of prefixes are monotone in the prefix length. -/
lemma cumPct100_take_mono (l : List ScoredMove) {j k : Nat} (h : j ≤ k) :
    cumPct100 (l.take j) ≤ cumPct100 (l.take k) := by
  have : l.take k = l.take j ++ (l.drop j).take (k - j) := by
    rw [← List.take_add]
    congr 1
    omega
  rw [this, cumPct100_append]
  exact Nat.le_add_right _ _

lemma cumPct100_take_le (l : List ScoredMove) (k : Nat) :
    cumPct100 (l.take k) ≤ cumPct100 l := by
  conv_rhs => rw [← List.take_append_drop k l]
  rw [cumPct100_append]
  exact Nat.le_add_right _ _

/-- What a successful cutoff scan means: the returned candidate sits at a
position `i` of the scanned list such that the running sum first reaches
`60` hundredths exactly at `i`. -/
lemma firstReaching_some_spec (l : List ScoredMove) :
    ∀ s : Nat, s < 60 → ∀ m, firstReaching l s = some m →
      ∃ i, ∃ hi : i < l.length, l.get ⟨i, hi⟩ = m ∧
        60 ≤ s + cumPct100 (l.take (i + 1)) ∧ s + cumPct100 (l.take i) < 60 := by
  induction l with
  | nil => intro s _ m h; simp [firstReaching] at h
  | cons a rest ih =>
      intro s hs m h
      simp only [firstReaching] at h
      split_ifs at h with hge
      · obtain rfl : a = m := by injection h
        refine ⟨0, by simp, rfl, ?_, ?_⟩
        · simpa [cumPct100_cons, cumPct100] using hge
        · simpa [cumPct100] using hs
      · have hs2 : s + a.percent100 < 60 := Nat.lt_of_not_le hge
        obtain ⟨i, hi, hget, hc1, hc2⟩ := ih (s + a.percent100) hs2 m h
        refine ⟨i + 1, by simpa using Nat.succ_lt_succ hi, ?_, ?_, ?_⟩
        · simpa using hget
        · rw [List.take_succ_cons, cumPct100_cons]
          omega
        · rw [List.take_succ_cons, cumPct100_cons]
          omega

/-- A failed cutoff scan means the running sum never reaches `60`. -/
lemma firstReaching_none_spec (l : List ScoredMove) :
    ∀ s : Nat, s < 60 → firstReaching l s = none → s + cumPct100 l < 60 := by
  induction l with
  | nil =>
      intro s hs _
      simp only [cumPct100, List.map_nil, List.sum_nil, Nat.add_zero]
      exact hs
  | cons a rest ih =>
      intro s hs h
      simp only [firstReaching] at h
      split_ifs at h with hge
      have := ih (s + a.percent100) (Nat.lt_of_not_le hge) h
      rw [cumPct100_cons]
      omega

/-- In a duplicate-free list, `indexOf` inverts `get`. -/
lemma nodup_indexOf_get {l : List ScoredMove} (hnd : l.Nodup) :
    ∀ (i : Nat) (hi : i < l.length), l.indexOf (l.get ⟨i, hi⟩) = i := by
  induction l with
  | nil => intro i hi; simp at hi
  | cons a rest ih =>
      intro i hi
      rw [List.nodup_cons] at hnd
      match i with
      | 0 => exact List.indexOf_cons_self a rest
      | Nat.succ j =>
          have hj : j < rest.length := by simpa using Nat.lt_of_succ_lt_succ hi
          have hmem : rest.get ⟨j, hj⟩ ∈ rest := List.get_mem rest j hj
          have hne : a ≠ rest.get ⟨j, hj⟩ := fun he => hnd.1 (he ▸ hmem)
          have hbe : (a == rest.get ⟨j, hj⟩) = false := beq_eq_false_iff_ne.2 hne
          have hrec := ih hnd.2 j hj
          have hgs : (a :: rest).get ⟨j + 1, hi⟩ = rest.get ⟨j, hj⟩ := by simp
          rw [hgs]
          simp only [List.get_eq_getElem] at hbe hrec ⊢
          simp [List.indexOf_cons, hbe, hrec]

/-! ## Membership and origin of the selected candidates -/

lemma topMovesProcess_subset (ms : List MoveRec) :
    ∀ m ∈ topMovesProcess ms, m ∈ sortDesc (ms.map (score (totalGames ms))) := by
  intro m hm
  simp only [topMovesProcess] at hm
  rcases hfr : firstReaching (sortDesc (ms.map (score (totalGames ms)))) 0 with _ | c
  · rw [hfr] at hm
    exact hm
  · rw [hfr] at hm
    exact List.take_subset _ _ hm

/-- Every selected candidate is the scoring of an input record, with the
denominator of its share equal to the total game count of the *full*
input. -/
lemma topMovesProcess_origin (ms : List MoveRec) (m : ScoredMove)
    (hm : m ∈ topMovesProcess ms) :
    ∃ m₀ ∈ ms, m = score (totalGames ms) m₀ := by
  have h1 := topMovesProcess_subset ms m hm
  have h2 : m ∈ ms.map (score (totalGames ms)) :=
    (sortDesc_perm (ms.map (score (totalGames ms)))).mem_iff.1 h1
  obtain ⟨m₀, hm₀, he⟩ := List.mem_map.1 h2
  exact ⟨m₀, hm₀, he.symm⟩

lemma score_injective (t : Nat) : Function.Injective (score t) := by
  intro x y h
  simp only [score, ScoredMove.mk.injEq] at h
  obtain ⟨h1, h2, h3, h4, -, -⟩ := h
  cases x
  cases y
  simp only [MoveRec.mk.injEq]
  exact ⟨h1, h2, h3, h4⟩

/-! ## Claim C1: the coverage-cutoff selection -/

/-- C1 (amended): for a non-empty, duplicate-free candidate list with
positive total game count, `top_moves` returns a non-empty prefix of the
candidates stably sorted by descending game count; whenever some prefix
of that sorted list has cumulative share `≥ 0.60` (`60` hundredths), the
returned prefix is the shortest prefix whose cumulative share reaches
`0.60`; if no prefix reaches `0.60` (possible, because the accumulated
shares are the *rounded* per-move shares), the entire sorted list is
returned.  The amendment relative to the frozen claim: (a) candidates
are assumed pairwise distinct, because `moves.index(m)` returns the
first *equal* record, and (b) the "cumulative share reaches 0.60"
guarantee is conditional on some prefix reaching it. -/
theorem topMoves_coverage_cutoff (ms : List MoveRec)
    (hne : ms ≠ []) (_hpos : 0 < totalGames ms) (hnd : ms.Nodup) :
    List.Perm (sortDesc (ms.map (score (totalGames ms)))) (ms.map (score (totalGames ms))) ∧
    (sortDesc (ms.map (score (totalGames ms)))).Pairwise (fun a b => b.games ≤ a.games) ∧
    topMovesProcess ms ≠ [] ∧
    (∃ k, topMovesProcess ms = (sortDesc (ms.map (score (totalGames ms)))).take k) ∧
    ((∃ k, 60 ≤ cumPct100 ((sortDesc (ms.map (score (totalGames ms)))).take k)) →
      60 ≤ cumPct100 (topMovesProcess ms) ∧
      ∀ j < (topMovesProcess ms).length,
        cumPct100 ((sortDesc (ms.map (score (totalGames ms)))).take j) < 60) ∧
    ((∀ k, cumPct100 ((sortDesc (ms.map (score (totalGames ms)))).take k) < 60) →
      topMovesProcess ms = sortDesc (ms.map (score (totalGames ms)))) := by
  have hperm := sortDesc_perm (ms.map (score (totalGames ms)))
  have hpair := sortDesc_pairwise (ms.map (score (totalGames ms)))
  have hnd2 : (sortDesc (ms.map (score (totalGames ms)))).Nodup :=
    hperm.nodup_iff.2 (hnd.map (score_injective (totalGames ms)))
  have hsortlen : (sortDesc (ms.map (score (totalGames ms)))).length = ms.length := by
    rw [hperm.length_eq, List.length_map]
  have hmsne : ms.length ≠ 0 := fun h => hne (List.length_eq_zero.1 h)
  have hdef : topMovesProcess ms =
      match firstReaching (sortDesc (ms.map (score (totalGames ms)))) 0 with
      | some m =>
          (sortDesc (ms.map (score (totalGames ms)))).take
            ((sortDesc (ms.map (score (totalGames ms)))).indexOf m + 1)
      | none => sortDesc (ms.map (score (totalGames ms))) := rfl
  rcases hfr : firstReaching (sortDesc (ms.map (score (totalGames ms)))) 0 with _ | m
  · have hnone := firstReaching_none_spec _ 0 (by omega) hfr
    have hres : topMovesProcess ms = sortDesc (ms.map (score (totalGames ms))) := by
      rw [hdef, hfr]
    refine ⟨hperm, hpair, ?_, ⟨(sortDesc (ms.map (score (totalGames ms)))).length,
      by rw [hres, List.take_length]⟩, ?_, fun _ => hres⟩
    · rw [hres]
      intro hnil
      exact hmsne (by rw [← hsortlen, hnil]; rfl)
    · rintro ⟨k, hk⟩
      have := cumPct100_take_le (sortDesc (ms.map (score (totalGames ms)))) k
      omega
  · obtain ⟨i, hi, hget, hc1, hc2⟩ := firstReaching_some_spec _ 0 (by omega) m hfr
    have hidx : (sortDesc (ms.map (score (totalGames ms)))).indexOf m = i := by
      rw [← hget]
      exact nodup_indexOf_get hnd2 i hi
    have hres : topMovesProcess ms =
        (sortDesc (ms.map (score (totalGames ms)))).take (i + 1) := by
      rw [hdef, hfr]
      show (sortDesc (ms.map (score (totalGames ms)))).take
          ((sortDesc (ms.map (score (totalGames ms)))).indexOf m + 1) =
        (sortDesc (ms.map (score (totalGames ms)))).take (i + 1)
      rw [hidx]
    have hlen2 : ((sortDesc (ms.map (score (totalGames ms)))).take (i + 1)).length = i + 1 := by
      rw [List.length_take]
      omega
    refine ⟨hperm, hpair, ?_, ⟨i + 1, hres⟩, ?_, ?_⟩
    · rw [hres]
      exact List.ne_nil_of_length_pos (by rw [hlen2]; omega)
    · intro _
      constructor
      · rw [hres]
        omega
      · intro j hj
        rw [hres, hlen2] at hj
        have hmono := cumPct100_take_mono (sortDesc (ms.map (score (totalGames ms))))
          (show j ≤ i by omega)
        omega
    · intro hall
      have := hall (i + 1)
      omega

/-- Two equal records, as Python dict equality allows: exposes the
`moves.index(m)` quirk of line 48. -/
def c1dup : MoveRec := ⟨"e4", 3, 0, 0⟩

/-- 201 one-game moves: every rounded share is `0.00`, so the running
sum never reaches `0.6` and line 49 returns the whole list. -/
def c1many : List MoveRec := List.replicate 201 ⟨"a", 1, 0, 0⟩

set_option maxRecDepth 100000 in
/-- C1 counterexample.  First input `[c1dup, c1dup]` (two equal records,
total 6 games, each share `0.50`): the scan reaches `0.60` at the second
record, but `moves.index(m)` finds the first equal record, so the result
is a single candidate with cumulative share `0.50 < 0.60` even though a
prefix reaching `0.60` exists (the whole sorted list has cumulative
share `1.00`).  Second input `c1many` (201 moves of one game each): each
share rounds to `0.00`, the running sum never reaches `0.60`, and the
returned sequence — the whole list — has cumulative share `0.00 < 0.60`.
Both inputs are non-empty with positive total game count, so the claim
as stated (returned cumulative share always `≥ 0.60`, and the result is
the shortest prefix reaching `0.60`) fails on them. -/
theorem topMoves_coverage_cutoff_counterexample :
    ([c1dup, c1dup] ≠ [] ∧ 0 < totalGames [c1dup, c1dup] ∧
      cumPct100 (topMovesProcess [c1dup, c1dup]) < 60 ∧
      60 ≤ cumPct100 (sortDesc ([c1dup, c1dup].map (score (totalGames [c1dup, c1dup]))))) ∧
    (c1many ≠ [] ∧ 0 < totalGames c1many ∧
      cumPct100 (topMovesProcess c1many) < 60) := by
  decide

/-- Concrete input for C1: three distinct candidates with 4, 3 and 3
games (total 10; rounded shares `0.40`, `0.30`, `0.30`). -/
def c1ex : List MoveRec := [⟨"Nf3", 4, 0, 0⟩, ⟨"e5", 3, 0, 0⟩, ⟨"c5", 3, 0, 0⟩]

set_option maxRecDepth 4000 in
/-- C1 witness: the amended theorem applied at `c1ex`. -/
theorem topMoves_coverage_cutoff_witness :
    (c1ex ≠ [] ∧ 0 < totalGames c1ex ∧ c1ex.Nodup) ∧
    (List.Perm (sortDesc (c1ex.map (score (totalGames c1ex)))) (c1ex.map (score (totalGames c1ex))) ∧
    (sortDesc (c1ex.map (score (totalGames c1ex)))).Pairwise (fun a b => b.games ≤ a.games) ∧
    topMovesProcess c1ex ≠ [] ∧
    (∃ k, topMovesProcess c1ex = (sortDesc (c1ex.map (score (totalGames c1ex)))).take k) ∧
    ((∃ k, 60 ≤ cumPct100 ((sortDesc (c1ex.map (score (totalGames c1ex)))).take k)) →
      60 ≤ cumPct100 (topMovesProcess c1ex) ∧
      ∀ j < (topMovesProcess c1ex).length,
        cumPct100 ((sortDesc (c1ex.map (score (totalGames c1ex)))).take j) < 60) ∧
    ((∀ k, cumPct100 ((sortDesc (c1ex.map (score (totalGames c1ex)))).take k) < 60) →
      topMovesProcess c1ex = sortDesc (c1ex.map (score (totalGames c1ex))))) :=
  ⟨by decide, topMoves_coverage_cutoff c1ex (by decide) (by decide) (by decide)⟩

/-! ## Claim C2: share computation and the sum of shares -/

lemma sum_games_cast (ms : List MoveRec) :
    (ms.map (fun m => (m.games : ℤ))).sum = (totalGames ms : ℤ) := by
  rw [totalGames, Nat.cast_list_sum, List.map_map]
  rfl

lemma cumPct100_scored_cast (ms : List MoveRec) (T : Nat) :
    (cumPct100 (ms.map (score T)) : ℤ) =
      (ms.map (fun m => (pct100 T m.games : ℤ))).sum := by
  induction ms with
  | nil => simp [cumPct100]
  | cons a rest ih =>
      simp only [List.map_cons, cumPct100_cons, List.sum_cons] at ih ⊢
      push_cast
      rw [← ih]
      simp [score]

/-- Summing the per-share rounding bound over a candidate list. -/
lemma sum_pct100_close (T : Nat) (hT : 0 < T) :
    ∀ l : List MoveRec,
      2 * |(T : ℤ) * (l.map (fun m => (pct100 T m.games : ℤ))).sum
            - 100 * (l.map (fun m => (m.games : ℤ))).sum| ≤ l.length * T := by
  intro l
  induction l with
  | nil => simp
  | cons a rest ih =>
      simp only [List.map_cons, List.sum_cons, List.length_cons]
      have h1 := roundHalfEvenDiv_close (100 * a.games) T hT
      have hp : (pct100 T a.games : ℤ) = (roundHalfEvenDiv (100 * a.games) T : ℤ) := by
        simp [pct100]
      have htri : |(T : ℤ) * (pct100 T a.games : ℤ) - 100 * (a.games : ℤ)
            + ((T : ℤ) * (rest.map (fun m => (pct100 T m.games : ℤ))).sum
              - 100 * (rest.map (fun m => (m.games : ℤ))).sum)|
          ≤ |(T : ℤ) * (pct100 T a.games : ℤ) - 100 * (a.games : ℤ)|
            + |(T : ℤ) * (rest.map (fun m => (pct100 T m.games : ℤ))).sum
              - 100 * (rest.map (fun m => (m.games : ℤ))).sum| := abs_add _ _
      have he : (T : ℤ) * ((pct100 T a.games : ℤ)
              + (rest.map (fun m => (pct100 T m.games : ℤ))).sum)
            - 100 * ((a.games : ℤ) + (rest.map (fun m => (m.games : ℤ))).sum)
          = (T : ℤ) * (pct100 T a.games : ℤ) - 100 * (a.games : ℤ)
            + ((T : ℤ) * (rest.map (fun m => (pct100 T m.games : ℤ))).sum
              - 100 * (rest.map (fun m => (m.games : ℤ))).sum) := by ring
      rw [he]
      have h1' : 2 * |(T : ℤ) * (pct100 T a.games : ℤ) - 100 * (a.games : ℤ)| ≤ T := by
        rw [hp]
        push_cast at h1
        exact h1
      push_cast
      push_cast at ih h1' htri
      linarith

/-- C2: every selected candidate's stored share is its game count
(`white + draws + black`) divided by the summed game count of the full
result set before truncation, rounded half-to-even to two decimals
(in hundredths: `roundHalfEvenDiv (100 * games) total`); and over the
full candidate set the shares sum to `1.00` up to rounding error: the
sum differs from `100` hundredths by at most half a hundredth per
candidate, `2 * |sum - 100| ≤ n`. -/
theorem topMoves_share_spec (ms : List MoveRec) (hpos : 0 < totalGames ms) :
    (∀ m ∈ topMovesProcess ms,
      m.percent100 = roundHalfEvenDiv (100 * m.games) (totalGames ms) ∧
      m.games = m.white + m.draws + m.black) ∧
    2 * |(cumPct100 (ms.map (score (totalGames ms))) : ℤ) - 100| ≤ ms.length := by
  constructor
  · intro m hm
    obtain ⟨m₀, hm₀, rfl⟩ := topMovesProcess_origin ms m hm
    exact ⟨rfl, rfl⟩
  · have hsum := sum_pct100_close (totalGames ms) hpos ms
    rw [sum_games_cast ms] at hsum
    rw [← cumPct100_scored_cast ms (totalGames ms)] at hsum
    have he : (totalGames ms : ℤ) * (cumPct100 (ms.map (score (totalGames ms))) : ℤ)
          - 100 * (totalGames ms : ℤ)
        = ((cumPct100 (ms.map (score (totalGames ms))) : ℤ) - 100) * (totalGames ms : ℤ) := by
      ring
    rw [he, abs_mul, abs_of_nonneg (show (0:ℤ) ≤ (totalGames ms : ℤ) by positivity)] at hsum
    have hTpos : (0:ℤ) < (totalGames ms : ℤ) := by exact_mod_cast hpos
    refine Int.le_of_mul_le_mul_right ?_ hTpos
    calc 2 * |(cumPct100 (ms.map (score (totalGames ms))) : ℤ) - 100| * (totalGames ms : ℤ)
        = 2 * (|(cumPct100 (ms.map (score (totalGames ms))) : ℤ) - 100| * (totalGames ms : ℤ)) := by
          ring
      _ ≤ ms.length * (totalGames ms : ℤ) := hsum
      _ = (ms.length : ℤ) * (totalGames ms : ℤ) := by ring

/-- Concrete input for C2: two candidates, 20 and 10 games (total 30;
shares round to `0.67` and `0.33`). -/
def c2ex : List MoveRec := [⟨"e4", 10, 5, 5⟩, ⟨"d4", 8, 1, 1⟩]

/-- C2 witness: the theorem applied at `c2ex`. -/
theorem topMoves_share_spec_witness :
    (0 < totalGames c2ex) ∧
    ((∀ m ∈ topMovesProcess c2ex,
      m.percent100 = roundHalfEvenDiv (100 * m.games) (totalGames c2ex) ∧
      m.games = m.white + m.draws + m.black) ∧
    2 * |(cumPct100 (c2ex.map (score (totalGames c2ex))) : ℤ) - 100| ≤ c2ex.length) :=
  ⟨by decide, topMoves_share_spec c2ex (by decide)⟩

/-! ## Claims C3 and C9: query construction and the rating band -/

/-- For a non-zero `min_rating` within range, the band computed on line
29 is the smallest element of `RATING_BANDS` that is `≥ min_rating`. -/
lemma bandFor_spec (mr : Int) (h0 : mr ≠ 0) (hle : mr ≤ 2500) :
    ∃ b, bandFor mr = some b ∧ b ∈ RATING_BANDS ∧ mr ≤ b ∧
      ∀ r ∈ RATING_BANDS, mr ≤ r → b ≤ r := by
  have hb : bandFor mr = (RATING_BANDS.filter (fun r => decide (mr ≤ r))).min? := by
    simp [bandFor, h0]
  by_cases h1 : mr ≤ 1600
  · refine ⟨1600, ?_, by decide, h1, ?_⟩
    · have hf : RATING_BANDS.filter (fun r => decide (mr ≤ r)) = [1600, 1800, 2000, 2500] := by
        simp [RATING_BANDS, List.filter, decide_eq_true h1,
          decide_eq_true (show mr ≤ 1800 by omega), decide_eq_true (show mr ≤ 2000 by omega),
          decide_eq_true (show mr ≤ 2500 by omega)]
      rw [hb, hf]
      decide
    · intro r hr _
      simp [RATING_BANDS] at hr
      rcases hr with rfl | rfl | rfl | rfl <;> omega
  · by_cases h2 : mr ≤ 1800
    · refine ⟨1800, ?_, by decide, h2, ?_⟩
      · have hf : RATING_BANDS.filter (fun r => decide (mr ≤ r)) = [1800, 2000, 2500] := by
          simp [RATING_BANDS, List.filter, decide_eq_false h1, decide_eq_true h2,
            decide_eq_true (show mr ≤ 2000 by omega), decide_eq_true (show mr ≤ 2500 by omega)]
        rw [hb, hf]
        decide
      · intro r hr hmr
        simp [RATING_BANDS] at hr
        rcases hr with rfl | rfl | rfl | rfl <;> omega
    · by_cases h3 : mr ≤ 2000
      · refine ⟨2000, ?_, by decide, h3, ?_⟩
        · have hf : RATING_BANDS.filter (fun r => decide (mr ≤ r)) = [2000, 2500] := by
            simp [RATING_BANDS, List.filter, decide_eq_false h1, decide_eq_false h2,
              decide_eq_true h3, decide_eq_true (show mr ≤ 2500 by omega)]
          rw [hb, hf]
          decide
        · intro r hr hmr
          simp [RATING_BANDS] at hr
          rcases hr with rfl | rfl | rfl | rfl <;> omega
      · refine ⟨2500, ?_, by decide, hle, ?_⟩
        · have hf : RATING_BANDS.filter (fun r => decide (mr ≤ r)) = [2500] := by
            simp [RATING_BANDS, List.filter, decide_eq_false h1, decide_eq_false h2,
              decide_eq_false h3, decide_eq_true hle]
          rw [hb, hf]
          decide
        · intro r hr hmr
          simp [RATING_BANDS] at hr
          rcases hr with rfl | rfl | rfl | rfl <;> omega

/-- C3: the statistics query.  With `min_rating` omitted the masters
pool is queried with no rating filter; with `min_rating = 0` (falsy) the
rating-filtered pool is queried at the highest band 2500; with a
non-zero `min_rating ≤ 2500` the rating-filtered pool is queried at the
smallest band `≥ min_rating`; and every request's `fen` parameter is the
input FEN restricted to its first four space-separated fields.  (For
`min_rating > 2500` no band exists and the call fails instead — claim
C9 / `topMoves_band_overflow_error`.) -/
theorem buildQuery_spec (fen : String) :
    buildQuery fen none = Except.ok ⟨Pool.masters, fenMinimal fen, none⟩ ∧
    buildQuery fen (some 0) = Except.ok ⟨Pool.lichessDB, fenMinimal fen, some 2500⟩ ∧
    (∀ mr : Int, mr ≠ 0 → mr ≤ 2500 →
      ∃ b, buildQuery fen (some mr) = Except.ok ⟨Pool.lichessDB, fenMinimal fen, some b⟩ ∧
        b ∈ RATING_BANDS ∧ mr ≤ b ∧ ∀ r ∈ RATING_BANDS, mr ≤ r → b ≤ r) ∧
    (∀ minRating q, buildQuery fen minRating = Except.ok q → q.fen = fenMinimal fen) ∧
    fenMinimal fen = " ".intercalate ((pySplit fen).take 4) := by
  refine ⟨rfl, by simp [buildQuery, bandFor], ?_, ?_, rfl⟩
  · intro mr h0 hle
    obtain ⟨b, hb, hmem, hmrb, hmin⟩ := bandFor_spec mr h0 hle
    refine ⟨b, ?_, hmem, hmrb, hmin⟩
    simp [buildQuery, hb]
  · intro minRating q h
    match minRating with
    | none =>
        simp only [buildQuery] at h
        obtain rfl : (⟨Pool.masters, fenMinimal fen, none⟩ : QueryRequest) = q := by
          injection h
        rfl
    | some mr =>
        simp only [buildQuery] at h
        rcases hb : bandFor mr with _ | b
        · rw [hb] at h
          exact absurd h (by simp)
        · rw [hb] at h
          obtain rfl : (⟨Pool.lichessDB, fenMinimal fen, some b⟩ : QueryRequest) = q := by
            injection h
          rfl

/-- Concrete FEN for the C3 witness. -/
def c3fen : String := "rnbqkbnr/pppppppp/8/8/8/8/PPPPPPPP/RNBQKBNR w KQkq - 0 1"

/-- C3 witness: the theorem applied at `c3fen`, with the non-zero branch
instantiated at `min_rating = 1700` (whose band is 1800), and the FEN
key evaluated. -/
theorem buildQuery_spec_witness :
    (buildQuery c3fen none = Except.ok ⟨Pool.masters, fenMinimal c3fen, none⟩ ∧
      buildQuery c3fen (some 0) = Except.ok ⟨Pool.lichessDB, fenMinimal c3fen, some 2500⟩) ∧
    (∃ b, buildQuery c3fen (some 1700) =
        Except.ok ⟨Pool.lichessDB, fenMinimal c3fen, some b⟩ ∧
      b ∈ RATING_BANDS ∧ (1700 : Int) ≤ b ∧
      ∀ r ∈ RATING_BANDS, (1700 : Int) ≤ r → b ≤ r) ∧
    fenMinimal c3fen = "rnbqkbnr/pppppppp/8/8/8/8/PPPPPPPP/RNBQKBNR w KQkq -" :=
  ⟨⟨(buildQuery_spec c3fen).1, (buildQuery_spec c3fen).2.1⟩,
    (buildQuery_spec c3fen).2.2.1 1700 (by decide) (by decide), by decide⟩

/-- C9: for `min_rating > 2500` the generator expression on line 29
filters every band out, so Python's `min` raises `ValueError` before
`requests.get` is reached — the result is the same error for *every*
possible network oracle, i.e. no request is made and no default to the
highest band occurs. -/
theorem topMoves_band_overflow_error (fen : String) (mr : Int) (h : 2500 < mr) :
    ∀ fetch, topMoves fetch fen (some mr) =
      Except.error "ValueError: min() arg is an empty sequence" := by
  intro fetch
  have h0 : mr ≠ 0 := by omega
  have hf : RATING_BANDS.filter (fun r => decide (mr ≤ r)) = [] := by
    simp [RATING_BANDS, List.filter, decide_eq_false (show ¬ mr ≤ 1600 by omega),
      decide_eq_false (show ¬ mr ≤ 1800 by omega),
      decide_eq_false (show ¬ mr ≤ 2000 by omega),
      decide_eq_false (show ¬ mr ≤ 2500 by omega)]
  have hb : bandFor mr = none := by
    rw [bandFor, if_pos h0, hf]
    rfl
  simp [topMoves, buildQuery, hb]

/-- C9 witness: the theorem applied at `min_rating = 2600`, with an
oracle that would happily answer any request — but is never asked. -/
theorem topMoves_band_overflow_error_witness :
    (2500 : Int) < 2600 ∧
    topMoves (fun _ => Except.ok []) "8/8/8/8/8/8/8/8 w - - 0 1" (some 2600) =
      Except.error "ValueError: min() arg is an empty sequence" :=
  ⟨by decide, topMoves_band_overflow_error "8/8/8/8/8/8/8/8 w - - 0 1" 2600 (by decide) _⟩

/-! ## Claims C4, C5, C6: the per-line branch / commit / fallback policy -/

/-- C4: at an opponent-turn line, the expander queries the statistics
with `min_rating = 2500`; when the query returns `N ≥ 1` candidates the
line produces exactly the `N` child lines `line + " " + san`, one per
candidate in order — each child is one ply longer than the parent, ends
in its candidate's move, and children of distinct candidate moves are
distinct lines. -/
theorem expandLine_opponent_branching (env : Env) (player : Bool) (line : String)
    (cs : List ScoredMove)
    (hturn : env.turnOf (pySplit line) ≠ player)
    (hq : topMoves env.fetch (env.fenOf (pySplit line)) (some 2500) = Except.ok cs)
    (hn : 1 ≤ cs.length)
    (htok : ∀ c ∈ cs, isToken c.san = true) :
    expandLine env player line = Except.ok (cs.map (fun c => line ++ " " ++ c.san)) ∧
    (cs.map (fun c => line ++ " " ++ c.san)).length = cs.length ∧
    (∀ c ∈ cs, pySplit (line ++ " " ++ c.san) = pySplit line ++ [c.san] ∧
      (pySplit (line ++ " " ++ c.san)).length = (pySplit line).length + 1) ∧
    ((cs.map ScoredMove.san).Nodup → (cs.map (fun c => line ++ " " ++ c.san)).Nodup) := by
  have hn' : ¬ cs.length < 1 := by omega
  refine ⟨by simp [expandLine, hturn, hq, hn'], List.length_map _ _, ?_, ?_⟩
  · intro c hc
    have hs := pySplit_append_token line c.san (htok c hc)
    exact ⟨hs, by rw [hs]; simp⟩
  · intro hnd
    have hinj : Function.Injective (fun s => line ++ " " ++ s) :=
      fun s t h => string_append_left_cancel h
    simpa [List.map_map, Function.comp] using hnd.map hinj

/-- C5: at a line where it is the player's own turn, the expander calls
the engine once with the default time budget 0.5 seconds and appends
exactly one child line; the statistics oracle is irrelevant (the result
is identical for every `fetch` oracle, so no statistical candidate count
matters). -/
theorem expandLine_player_commit (env : Env) (player : Bool) (line : String) (mv : String)
    (hturn : env.turnOf (pySplit line) = player)
    (hbm : env.bestMove (env.fenOf (pySplit line)) (1/2 : ℚ) = Except.ok mv) :
    expandLine env player line = Except.ok [line ++ " " ++ mv] ∧
    (∀ f g : QueryRequest → Except String (List MoveRec),
      expandLine { env with fetch := f } player line =
        expandLine { env with fetch := g } player line) ∧
    (isToken mv = true → pySplit (line ++ " " ++ mv) = pySplit line ++ [mv] ∧
      (pySplit (line ++ " " ++ mv)).length = (pySplit line).length + 1) := by
  have hbm' : env.bestMove (env.fenOf (pySplit line)) ((2 : ℚ)⁻¹) = Except.ok mv := by
    simpa [one_div] using hbm
  refine ⟨by simp [expandLine, hturn, hbm'], ?_, ?_⟩
  · intro f g
    simp [expandLine, hturn]
  · intro ht
    have hs := pySplit_append_token line mv ht
    exact ⟨hs, by rw [hs]; simp⟩

/-- C6: at an opponent-turn line where the statistics provider returns
zero candidates, the fallback fires: the engine is called with time
budget 1.0 seconds and the line produces exactly one child ending in
that engine move. -/
theorem expandLine_fallback (env : Env) (player : Bool) (line : String) (mv : String)
    (hturn : env.turnOf (pySplit line) ≠ player)
    (hq : topMoves env.fetch (env.fenOf (pySplit line)) (some 2500) = Except.ok [])
    (hbm : env.bestMove (env.fenOf (pySplit line)) (1 : ℚ) = Except.ok mv) :
    expandLine env player line = Except.ok [line ++ " " ++ mv] ∧
    (isToken mv = true → pySplit (line ++ " " ++ mv) = pySplit line ++ [mv] ∧
      (pySplit (line ++ " " ++ mv)).length = (pySplit line).length + 1) := by
  refine ⟨by simp [expandLine, hturn, hq, hbm], ?_⟩
  intro ht
  have hs := pySplit_append_token line mv ht
  exact ⟨hs, by rw [hs]; simp⟩

/-- A deterministic oracle environment for witnesses: after the first
ply it is the opponent's turn; the statistics provider always answers
with two candidates, e5 (3 games) and c5 (2 games); the engine always
answers Nf3. -/
def envA : Env where
  turnOf := fun moves => moves.length % 2 == 0
  fenOf := fun _ => "F w - -"
  fetch := fun _ => Except.ok [⟨"e5", 3, 0, 0⟩, ⟨"c5", 2, 0, 0⟩]
  bestMove := fun _ _ => Except.ok "Nf3"

/-- The candidates `top_moves` selects under `envA`: total 5 games,
shares `0.60` / `0.40`, so the cutoff keeps exactly the first. -/
def c4cs : List ScoredMove := [⟨"e5", 3, 0, 0, 3, 60⟩]

/-- C4 witness: the theorem applied to the line `"e4"` under `envA`. -/
theorem expandLine_opponent_branching_witness :
    (envA.turnOf (pySplit "e4") ≠ true ∧
      topMoves envA.fetch (envA.fenOf (pySplit "e4")) (some 2500) = Except.ok c4cs ∧
      1 ≤ c4cs.length ∧ ∀ c ∈ c4cs, isToken c.san = true) ∧
    (expandLine envA true "e4" = Except.ok (c4cs.map (fun c => "e4" ++ " " ++ c.san)) ∧
    (c4cs.map (fun c => "e4" ++ " " ++ c.san)).length = c4cs.length ∧
    (∀ c ∈ c4cs, pySplit ("e4" ++ " " ++ c.san) = pySplit "e4" ++ [c.san] ∧
      (pySplit ("e4" ++ " " ++ c.san)).length = (pySplit "e4").length + 1) ∧
    ((c4cs.map ScoredMove.san).Nodup →
      (c4cs.map (fun c => "e4" ++ " " ++ c.san)).Nodup)) :=
  ⟨⟨by decide, rfl, by decide, by decide⟩,
    expandLine_opponent_branching envA true "e4" c4cs (by decide) rfl (by decide) (by decide)⟩

/-- C5 witness: the theorem applied to the two-ply line `"e4 e5"`
(player White to move) under `envA`. -/
theorem expandLine_player_commit_witness :
    (envA.turnOf (pySplit "e4 e5") = true ∧
      envA.bestMove (envA.fenOf (pySplit "e4 e5")) (1/2 : ℚ) = Except.ok "Nf3") ∧
    (expandLine envA true "e4 e5" = Except.ok ["e4 e5" ++ " " ++ "Nf3"] ∧
    (∀ f g : QueryRequest → Except String (List MoveRec),
      expandLine { envA with fetch := f } true "e4 e5" =
        expandLine { envA with fetch := g } true "e4 e5") ∧
    (isToken "Nf3" = true → pySplit ("e4 e5" ++ " " ++ "Nf3") = pySplit "e4 e5" ++ ["Nf3"] ∧
      (pySplit ("e4 e5" ++ " " ++ "Nf3")).length = (pySplit "e4 e5").length + 1)) :=
  ⟨⟨by decide, rfl⟩,
    expandLine_player_commit envA true "e4 e5" "Nf3" (by decide) rfl⟩

/-- Like `envA` but the statistics provider always returns an empty
candidate list, so the zero-candidates fallback fires. -/
def envB : Env where
  turnOf := fun moves => moves.length % 2 == 0
  fenOf := fun _ => "F w - -"
  fetch := fun _ => Except.ok []
  bestMove := fun _ _ => Except.ok "Nf3"

/-- C6 witness: the theorem applied to the line `"e4"` under `envB`. -/
theorem expandLine_fallback_witness :
    (envB.turnOf (pySplit "e4") ≠ true ∧
      topMoves envB.fetch (envB.fenOf (pySplit "e4")) (some 2500) = Except.ok [] ∧
      envB.bestMove (envB.fenOf (pySplit "e4")) (1 : ℚ) = Except.ok "Nf3") ∧
    (expandLine envB true "e4" = Except.ok ["e4" ++ " " ++ "Nf3"] ∧
    (isToken "Nf3" = true → pySplit ("e4" ++ " " ++ "Nf3") = pySplit "e4" ++ ["Nf3"] ∧
      (pySplit ("e4" ++ " " ++ "Nf3")).length = (pySplit "e4").length + 1)) :=
  ⟨⟨by decide, rfl, rfl⟩,
    expandLine_fallback envB true "e4" "Nf3" (by decide) rfl rfl⟩

/-! ## Claim C7: growth invariants of a generation -/

/-- Inverting a successful `top_moves` call: the query was built, the
network oracle answered, and the result is the processed answer. -/
lemma topMoves_ok_inv (fetch : QueryRequest → Except String (List MoveRec))
    (fen : String) (mr : Option Int) (cs : List ScoredMove)
    (h : topMoves fetch fen mr = Except.ok cs) :
    ∃ q ms, buildQuery fen mr = Except.ok q ∧ fetch q = Except.ok ms ∧
      cs = topMovesProcess ms := by
  simp only [topMoves] at h
  split at h
  · simp at h
  · rename_i q hq
    split at h
    · simp at h
    · rename_i ms hms
      refine ⟨q, ms, hq, hms, ?_⟩
      injection h with h2
      exact h2.symm

/-- Inverting a successful `expandLine`: either the opponent-turn branch
ran with a non-empty candidate list and produced one child per
candidate, or a single engine move produced a single child (the
player-turn commit or the zero-candidates fallback). -/
lemma expandLine_cases (env : Env) (player : Bool) (line : String) (out : List String)
    (h : expandLine env player line = Except.ok out) :
    (∃ cs, topMoves env.fetch (env.fenOf (pySplit line)) (some 2500) = Except.ok cs ∧
      1 ≤ cs.length ∧ out = cs.map (fun c => line ++ " " ++ c.san)) ∨
    (∃ mv t, env.bestMove (env.fenOf (pySplit line)) t = Except.ok mv ∧
      out = [line ++ " " ++ mv]) := by
  simp only [expandLine] at h
  split_ifs at h with hturn
  · split at h
    · simp at h
    · rename_i cs htm
      split_ifs at h with hlen
      · split at h
        · simp at h
        · rename_i mv hbm
          refine Or.inr ⟨mv, _, hbm, ?_⟩
          injection h with h2
          exact h2.symm
      · refine Or.inl ⟨cs, htm, by omega, ?_⟩
        injection h with h2
        exact h2.symm
  · split at h
    · simp at h
    · rename_i mv hbm
      refine Or.inr ⟨mv, _, hbm, ?_⟩
      injection h with h2
      exact h2.symm

/-- Every line that survives `expandLine` produces at least one child. -/
lemma expandLine_ne_nil (env : Env) (player : Bool) (line : String) (out : List String)
    (h : expandLine env player line = Except.ok out) : out ≠ [] := by
  rcases expandLine_cases env player line out h with ⟨cs, -, hlen, rfl⟩ | ⟨mv, t, -, rfl⟩
  · intro hnil
    rw [List.map_eq_nil_iff] at hnil
    subst hnil
    simp at hlen
  · simp

/-- Under token-producing oracles, every child of `expandLine` is its
parent plus one SAN token. -/
lemma expandLine_shape (env : Env) (player : Bool) (line : String) (out : List String)
    (htok : TokenEnv env) (h : expandLine env player line = Except.ok out) :
    ∀ child ∈ out, ∃ mv, isToken mv = true ∧ child = line ++ " " ++ mv := by
  rcases expandLine_cases env player line out h with ⟨cs, htm, -, rfl⟩ | ⟨mv, t, hbm, rfl⟩
  · intro child hc
    obtain ⟨c, hcmem, rfl⟩ := List.mem_map.1 hc
    obtain ⟨q, ms, -, hms, rfl⟩ := topMoves_ok_inv _ _ _ _ htm
    obtain ⟨m₀, hm₀, rfl⟩ := topMovesProcess_origin ms c hcmem
    exact ⟨(score (totalGames ms) m₀).san,
      by simpa [score] using htok.1 q ms hms m₀ hm₀, rfl⟩
  · intro child hc
    rw [List.mem_singleton] at hc
    subst hc
    exact ⟨mv, htok.2 _ _ _ hbm, rfl⟩

/-- Inverting a successful iteration: the next generation is exactly the
concatenation, in order, of every line's children. -/
lemma expandGeneration_ok_inv (env : Env) (player : Bool) :
    ∀ gen gen', expandGeneration env player gen = Except.ok gen' →
      ∃ css : List (List String), css.length = gen.length ∧ gen' = css.flatten ∧
        ∀ i (hi : i < gen.length) (hj : i < css.length),
          expandLine env player (gen.get ⟨i, hi⟩) = Except.ok (css.get ⟨i, hj⟩) := by
  intro gen
  induction gen with
  | nil =>
      intro gen' h
      simp only [expandGeneration] at h
      injection h with h2
      exact ⟨[], rfl, by simp [← h2], fun i hi _ => absurd hi (by simp)⟩
  | cons line rest ih =>
      intro gen' h
      simp only [expandGeneration] at h
      split at h
      · simp at h
      · rename_i children hchildren
        split at h
        · simp at h
        · rename_i tail htail
          injection h with h2
          obtain ⟨css, hlen, hflat, hidx⟩ := ih tail htail
          refine ⟨children :: css, by simp [hlen], ?_, ?_⟩
          · rw [← h2, List.flatten_cons, hflat]
          · intro i hi hj
            match i with
            | 0 => simpa using hchildren
            | Nat.succ k =>
                have hk : k < rest.length := by simpa using hi
                have hk2 : k < css.length := by simpa using hj
                simpa using hidx k hk hk2

lemma flatten_length_ge (css : List (List String)) (h : ∀ c ∈ css, c ≠ []) :
    css.length ≤ css.flatten.length := by
  induction css with
  | nil => simp
  | cons c rest ih =>
      simp only [List.flatten_cons, List.length_append, List.length_cons]
      have h1 : 1 ≤ c.length := by
        have hc := h c (List.mem_cons_self c rest)
        exact Nat.one_le_iff_ne_zero.2 (fun hz => hc (List.length_eq_zero.1 hz))
      have h2 := ih (fun x hx => h x (List.mem_cons_of_mem c hx))
      omega

/-- One iteration never shrinks the generation. -/
lemma expandGeneration_length_mono (env : Env) (player : Bool) (gen gen' : List String)
    (h : expandGeneration env player gen = Except.ok gen') : gen.length ≤ gen'.length := by
  obtain ⟨css, hlen, rfl, hidx⟩ := expandGeneration_ok_inv env player gen gen' h
  have hne : ∀ c ∈ css, c ≠ [] := by
    intro c hc
    obtain ⟨⟨i, hi2⟩, hg⟩ := List.mem_iff_get.1 hc
    have hi1 : i < gen.length := hlen ▸ hi2
    have hline := hidx i hi1 hi2
    rw [hg] at hline
    exact expandLine_ne_nil env player (gen.get ⟨i, hi1⟩) c hline
  calc gen.length = css.length := hlen.symm
    _ ≤ css.flatten.length := flatten_length_ge css hne

/-- The generation size is non-decreasing across any number of
iterations. -/
lemma expandIters_length_mono (env : Env) (player : Bool) :
    ∀ (n : Nat) (gen out : List String),
      expandIters env player n gen = Except.ok out → gen.length ≤ out.length := by
  intro n
  induction n with
  | zero =>
      intro gen out h
      simp only [expandIters] at h
      injection h with h2
      rw [h2]
  | succ k ih =>
      intro gen out h
      simp only [expandIters] at h
      split at h
      · simp at h
      · rename_i g2 hg2
        exact le_trans (expandGeneration_length_mono env player gen g2 hg2) (ih g2 out h)

/-- C7: one iteration maps each parent line, in order, to a non-empty
block of children, and the next generation is exactly the concatenation
of those blocks — so every line of generation `i+1` is its parent plus
exactly one ply, nothing is shortened, rewritten or deduplicated
(duplicate move sequences survive as separate entries of the
concatenation), and the line count never decreases, across any number
of iterations. -/
theorem expand_generation_invariants (env : Env) (player : Bool) (gen gen' : List String)
    (htokenv : TokenEnv env) (h : expandGeneration env player gen = Except.ok gen') :
    (∃ css : List (List String), css.length = gen.length ∧ gen' = css.flatten ∧
      ∀ i (hi : i < gen.length) (hj : i < css.length),
        expandLine env player (gen.get ⟨i, hi⟩) = Except.ok (css.get ⟨i, hj⟩) ∧
        css.get ⟨i, hj⟩ ≠ []) ∧
    (∀ child ∈ gen', ∃ parent ∈ gen, ∃ mv, isToken mv = true ∧
      child = parent ++ " " ++ mv ∧
      (pySplit child).length = (pySplit parent).length + 1) ∧
    gen.length ≤ gen'.length ∧
    (∀ n out, expandIters env player n gen = Except.ok out → gen.length ≤ out.length) := by
  obtain ⟨css, hlen, hflat, hidx⟩ := expandGeneration_ok_inv env player gen gen' h
  refine ⟨⟨css, hlen, hflat, ?_⟩, ?_, ?_, fun n out => expandIters_length_mono env player n gen out⟩
  · intro i hi hj
    exact ⟨hidx i hi hj, expandLine_ne_nil env player _ _ (hidx i hi hj)⟩
  · intro child hchild
    rw [hflat] at hchild
    obtain ⟨cl, hcl, hchild2⟩ := List.mem_flatten.1 hchild
    obtain ⟨⟨i, hi2⟩, hg⟩ := List.mem_iff_get.1 hcl
    have hi1 : i < gen.length := hlen ▸ hi2
    have hline := hidx i hi1 hi2
    rw [hg] at hline
    obtain ⟨mv, hmv, rfl⟩ :=
      expandLine_shape env player _ cl htokenv hline child hchild2
    exact ⟨gen.get ⟨i, hi1⟩, List.get_mem gen i hi1, mv, hmv, rfl,
      by rw [pySplit_append_token _ mv hmv]; simp⟩
  · exact expandGeneration_length_mono env player gen gen' h

/-- The `envA` oracles produce only SAN tokens. -/
lemma envA_token : TokenEnv envA := by
  constructor
  · intro q ms h
    injection h with h2
    subst h2
    decide
  · intro fen t mv h
    injection h with h2
    subst h2
    decide

/-- C7 witness: one iteration from the one-line frontier `["e4"]` under
`envA` (the cutoff keeps the single candidate e5), via the theorem. -/
theorem expand_generation_invariants_witness :
    (TokenEnv envA ∧ expandGeneration envA true ["e4"] = Except.ok ["e4 e5"]) ∧
    ((∃ css : List (List String), css.length = (["e4"] : List String).length ∧
      ["e4 e5"] = css.flatten ∧
      ∀ i (hi : i < (["e4"] : List String).length) (hj : i < css.length),
        expandLine envA true ((["e4"] : List String).get ⟨i, hi⟩) =
          Except.ok (css.get ⟨i, hj⟩) ∧ css.get ⟨i, hj⟩ ≠ []) ∧
    (∀ child ∈ (["e4 e5"] : List String), ∃ parent ∈ (["e4"] : List String),
      ∃ mv, isToken mv = true ∧ child = parent ++ " " ++ mv ∧
      (pySplit child).length = (pySplit parent).length + 1) ∧
    (["e4"] : List String).length ≤ (["e4 e5"] : List String).length ∧
    (∀ n out, expandIters envA true n ["e4"] = Except.ok out →
      (["e4"] : List String).length ≤ out.length)) :=
  ⟨⟨envA_token, rfl⟩,
    expand_generation_invariants envA true ["e4"] ["e4 e5"] envA_token rfl⟩

/-! ## Claim C8: failure of the statistics query aborts the run -/

/-- C8: when the statistics call fails (the network oracle returns an
error, modelling a non-2xx response or timeout), the error propagates
uncaught out of the expander: the iteration — and therefore the whole
run, for any positive iteration count — evaluates to that very error,
not to any partial or recovered line list.  The hypotheses isolate the
failure to the statistics provider: the engine oracle always succeeds,
and at least one line of the generation is at an opponent turn (so a
statistics query actually happens). -/
theorem expand_stats_failure_aborts (env : Env) (player : Bool) (gen : List String)
    (e : String)
    (hfe : ∀ q, env.fetch q = Except.error e)
    (hbm : ∀ fen t, ∃ mv, env.bestMove fen t = Except.ok mv)
    (hop : ∃ line ∈ gen, env.turnOf (pySplit line) ≠ player) :
    expandGeneration env player gen = Except.error e ∧
    ∀ n, expandIters env player (n + 1) gen = Except.error e := by
  have hband : bandFor 2500 = some 2500 := by decide
  have hgen : ∀ g : List String, (∃ line ∈ g, env.turnOf (pySplit line) ≠ player) →
      expandGeneration env player g = Except.error e := by
    intro g
    induction g with
    | nil =>
        rintro ⟨l, hl, -⟩
        simp at hl
    | cons line rest ih =>
        intro hops
        by_cases hturn : env.turnOf (pySplit line) ≠ player
        · have hq : topMoves env.fetch (env.fenOf (pySplit line)) (some 2500) =
              Except.error e := by
            simp [topMoves, buildQuery, hband, hfe]
          have hline : expandLine env player line = Except.error e := by
            simp [expandLine, hturn, hq]
          simp [expandGeneration, hline]
        · have hturn' : env.turnOf (pySplit line) = player := not_ne_iff.1 hturn
          obtain ⟨mv, hmv⟩ := hbm (env.fenOf (pySplit line)) ((2 : ℚ)⁻¹)
          have hline : expandLine env player line = Except.ok [line ++ " " ++ mv] := by
            simp [expandLine, hturn', hmv]
          have hops' : ∃ l ∈ rest, env.turnOf (pySplit l) ≠ player := by
            rcases hops with ⟨l, hl, hlt⟩
            rcases List.mem_cons.1 hl with rfl | hl2
            · exact absurd hturn' hlt
            · exact ⟨l, hl2, hlt⟩
          simp [expandGeneration, hline, ih hops']
  refine ⟨hgen gen hop, ?_⟩
  intro n
  simp [expandIters, hgen gen hop]

/-- Oracles whose statistics call always fails with `"boom"` while the
engine always succeeds. -/
def envC : Env where
  turnOf := fun moves => moves.length % 2 == 0
  fenOf := fun _ => "F w - -"
  fetch := fun _ => Except.error "boom"
  bestMove := fun _ _ => Except.ok "Nf3"

/-- C8 witness: the theorem applied to the frontier `["e4"]` under
`envC`: every expansion with at least one iteration is the error
itself. -/
theorem expand_stats_failure_aborts_witness :
    ((∀ q, envC.fetch q = Except.error "boom") ∧
      (∃ line ∈ (["e4"] : List String), envC.turnOf (pySplit line) ≠ true)) ∧
    (expandGeneration envC true ["e4"] = Except.error "boom" ∧
      ∀ n, expandIters envC true (n + 1) ["e4"] = Except.error "boom") :=
  ⟨⟨fun _ => rfl, ⟨"e4", by simp, by decide⟩⟩,
    expand_stats_failure_aborts envC true ["e4"] "boom" (fun _ => rfl)
      (fun _ _ => ⟨"Nf3", rfl⟩) ⟨"e4", by simp, by decide⟩⟩

/-! ## Claim C10: zero iterations, and no mutation of the input -/

/-- C10: with `iterations = 0` the expander returns the initial lines
unchanged (Python's `openings = list(initial_openings)` makes a fresh
copy and the loop body never runs), identically for *every* pair of
oracle environments — i.e. neither the statistics provider nor the
engine evaluator can influence (or be needed for) the result.  In this
pure embedding values are immutable, which faithfully captures that the
source never mutates the caller's list: it only rebinds its local
`openings` name to freshly built lists. -/
theorem expand_zero_iterations (env env2 : Env) (lines : List String) (player : Bool) :
    expandOpenings env lines player 0 = Except.ok lines ∧
    expandOpenings env lines player 0 = expandOpenings env2 lines player 0 :=
  ⟨rfl, rfl⟩
